import Mathlib

/-!
Verification of the CodeExplainer RAG pipeline (a pair of notebooks that
load a Python codebase, split it into chunks, embed the chunks into a FAISS
vector store and answer questions through a retrieval-augmented chain).

The notebooks themselves are glue around library calls: the chunking,
embedding, index persistence and maximal-marginal-relevance (MMR) retrieval
algorithms live in third-party libraries and are not part of the repository
sources.  Those parts are modelled here from the specification's component
contracts (each such definition carries a `Modelled from the spec` note).
The parts that are literally in the notebooks — the splitter parameters
`chunk_size=750, chunk_overlap=75`, the retriever configuration
`search_type="mmr", k=10`, the `format_docs` join with `"\n\n"`, the
`rlm/rag-prompt` template text and the `rag_chain` wiring with
`RunnablePassthrough` — are embedded directly from the source.

Texts are modelled as `List Char`, embedding vectors as `List Int`.
-/

namespace CodeExplainer

/-- An entry of the vector store: an embedding vector paired with the chunk
text it was computed from.  This is the spec's IndexEntry triple
(Embedding, Chunk text, metadata), with the metadata elided since no claim
mentions it. -/
structure Entry where
  vec : List Int
  text : List Char
deriving DecidableEq

/-- The vector index: the embedding dimension tag together with the stored
entries (spec §4.3: the persisted index carries "a dimension tag for
compatibility checking"). -/
structure Index where
  dim : Nat
  entries : List Entry
deriving DecidableEq

/-! ## Embedder

Modelled from the spec (§4.2): the HuggingFace sentence-transformer called
by the notebook is external; the spec's contract is that embedding is a
pure function of the text producing a vector of a fixed dimension
determined by the model.  We realise it as a concrete deterministic hash
of the character sequence, one component per dimension. -/

/-- Embedding dimension of the configured model
(`sentence-transformers/all-MiniLM-L6-v2` produces 384-dimensional
vectors). -/
def embedDim : Nat := 384

/-- Modelled from the spec: the Embedder.  A pure function from a text to a
fixed-dimension integer vector; component `j` is a rolling hash of the
characters seeded by `j`. -/
def embed (t : List Char) : List Int :=
  (List.range embedDim).map
    (fun j => ((t.foldl (fun acc c => (acc * 31 + c.toNat * (j + 1)) % 1000003) (j + 1) : Nat) : Int))

/-! ## Retrieval (maximal marginal relevance)

Modelled from the spec (§4.3/§4.4): `search` supports a diversity-aware
mode that "re-ranks an oversampled candidate set to balance relevance
against mutual dissimilarity among returned results".  The notebook
configures exactly this mode: `as_retriever(search_type="mmr",
search_kwargs={"k": 10})`.  We model MMR greedily: repeatedly pick the
candidate maximising (similarity to the query) minus (maximal similarity
to the already-selected results), the standard marginal-relevance score
with the relevance and diversity terms equally weighted. -/

/-- Dot product of two integer vectors (the similarity measure of the
model; components beyond the shorter vector are ignored). -/
def dot : List Int → List Int → Int
  | [], _ => 0
  | _, [] => 0
  | a :: as_, b :: bs => a * b + dot as_ bs

/-- Similarity of a stored entry to a vector: dot product of embeddings. -/
def sim (u v : List Int) : Int := dot u v

/-- Redundancy penalty of candidate `c` against the already selected
entries: the largest similarity of `c` to any selected entry (0 when
nothing is selected yet). -/
def penalty (sel : List Entry) (c : Entry) : Int :=
  sel.foldr (fun s acc => max (sim s.vec c.vec) acc) 0

/-- The marginal-relevance score of candidate `c` for query vector `qv`
given the already selected entries: relevance minus redundancy. -/
def mmrScore (qv : List Int) (sel : List Entry) (c : Entry) : Int :=
  sim qv c.vec - penalty sel c

/-- Pick the candidate with the greatest marginal-relevance score, returning
it together with the remaining candidates; `none` iff there are no
candidates. -/
def pickBest (qv : List Int) (sel : List Entry) : List Entry → Option (Entry × List Entry)
  | [] => none
  | c :: rest =>
    match pickBest qv sel rest with
    | none => some (c, [])
    | some (b, others) =>
      if mmrScore qv sel b ≤ mmrScore qv sel c then some (c, b :: others)
      else some (b, c :: others)

/-- Greedy MMR selection: repeatedly pick the best-scoring candidate,
recording the marginal score it was picked at, until `k` results are
selected or the candidates run out. -/
def mmrAux (qv : List Int) (sel : List Entry) (cands : List Entry) : Nat → List (Entry × Int)
  | 0 => []
  | k + 1 =>
    match pickBest qv sel cands with
    | none => []
    | some (b, others) => (b, mmrScore qv sel b) :: mmrAux qv (b :: sel) others k

/-- MMR retrieval over an entry list, with the marginal score each result
was selected at. -/
def retrieveScored (idx : List Entry) (q : List Char) (k : Nat) : List (Entry × Int) :=
  mmrAux (embed q) [] idx k

/-- The Retriever of the notebook: embed the query, then MMR-search the
index (`search_type="mmr"`). -/
def retrieve (idx : List Entry) (q : List Char) (k : Nat) : List Entry :=
  (retrieveScored idx q k).map Prod.fst

/-- The `k` configured in the notebook: `search_kwargs={"k": 10}`. -/
def retrieverK : Nat := 10

/-! ## Chunker

Modelled from the spec (§4.1): the notebook calls
`RecursiveCharacterTextSplitter.from_language(language=PYTHON,
chunk_size=750, chunk_overlap=75)`, whose algorithm is library code.  The
spec's contract: given `(max_size, overlap)` the Chunker "produces a lazy,
finite, ordered sequence of Chunks covering the Document's content such
that every position in the original text is represented in at least one
Chunk, and adjacent Chunks share `overlap` characters/tokens of context".
We realise that contract at the character level (the splitter's final
fallback separator): a sliding window of width `max_size` advancing by
`max_size - overlap`. -/

/-- Modelled from the spec: the Chunker.  Produces the ordered chunk list
of a text under `(maxSize, overlap)`: windows of `maxSize` characters,
consecutive windows sharing `overlap` characters.  A degenerate
configuration with `maxSize ≤ overlap` returns the whole text as one
chunk. -/
def slidingChunks (maxSize overlap : Nat) (t : List Char) : List (List Char) :=
  if maxSize - overlap = 0 then [t]
  else if t.length ≤ maxSize then [t]
  else t.take maxSize :: slidingChunks maxSize overlap (t.drop (maxSize - overlap))
termination_by t.length
decreasing_by
  simp_wf
  omega

/-- Glue the chunks back together, dropping the `overlap` characters each
chunk after the first shares with its predecessor. -/
def reconstruct (overlap : Nat) : List (List Char) → List Char
  | [] => []
  | c :: rest => c ++ (rest.map (List.drop overlap)).flatten

/-- The number of chunks `slidingChunks` produces, as a function of the
text length alone (same recursion on the length). -/
def chunkCount (maxSize overlap : Nat) (len : Nat) : Nat :=
  if maxSize - overlap = 0 then 1
  else if len ≤ maxSize then 1
  else 1 + chunkCount maxSize overlap (len - (maxSize - overlap))
termination_by len
decreasing_by
  simp_wf
  omega

/-- The notebook's splitter parameters: `chunk_size=750`. -/
def chunkSize : Nat := 750

/-- The notebook's splitter parameters: `chunk_overlap=75`. -/
def chunkOverlap : Nat := 75

/-! ## Index persistence

Modelled from the spec (§4.3/§6): the notebook calls
`vector_db.save_local("./embeddings")` and `FAISS.load_local("embeddings",
embeddings, allow_dangerous_deserialization=True)`; the serialisation
format is library code.  The spec treats the persisted index as an opaque
serialised blob with a `save(path)`/`load(path)` contract and "a dimension
tag for compatibility checking", where `load` of an index built with a
different embedding dimension "must fail fast with a dimension-mismatch
error".  We realise the blob as a token list: the dimension tag, the entry
count, then each entry length-prefixed. -/

/-- Errors `load` can fail with. -/
inductive LoadErr where
  | dimMismatch
  | malformed
deriving DecidableEq

/-- Serialise an integer as a natural token (zigzag coding). -/
def encodeInt (i : Int) : Nat :=
  if 0 ≤ i then 2 * i.toNat else 2 * (-i).toNat - 1

/-- Deserialise an integer token. -/
def decodeInt (n : Nat) : Int :=
  if n % 2 = 0 then ((n / 2 : Nat) : Int) else -(((n + 1) / 2 : Nat) : Int)

/-- Serialise one index entry: length-prefixed vector, then length-prefixed
text. -/
def encodeEntry (e : Entry) : List Nat :=
  e.vec.length :: (e.vec.map encodeInt ++ (e.text.length :: e.text.map Char.toNat))

/-- Read `n` tokens off the front of the blob. -/
def readTokens (n : Nat) (l : List Nat) : Option (List Nat × List Nat) :=
  if n ≤ l.length then some (l.take n, l.drop n) else none

/-- Deserialise one index entry off the front of the blob. -/
def decodeEntry : List Nat → Option (Entry × List Nat)
  | [] => none
  | n :: l1 =>
    (readTokens n l1).bind fun p =>
      match p.2 with
      | [] => none
      | m :: l3 =>
        (readTokens m l3).bind fun p2 =>
          some (⟨p.1.map decodeInt, p2.1.map Char.ofNat⟩, p2.2)

/-- Deserialise `k` entries off the front of the blob. -/
def decodeEntries : Nat → List Nat → Option (List Entry × List Nat)
  | 0, l => some ([], l)
  | k + 1, l =>
    (decodeEntry l).bind fun p =>
      (decodeEntries k p.2).bind fun p2 => some (p.1 :: p2.1, p2.2)

/-- Modelled from the spec: `save` serialises the index — the dimension
tag, the entry count, then the entries. -/
def save (idx : Index) : List Nat :=
  idx.dim :: (idx.entries.length :: (idx.entries.map encodeEntry).flatten)

/-- Modelled from the spec: `load` deserialises a blob, checking the stored
dimension tag against the dimension `d` of the embedding model supplied at
load time and failing fast on a mismatch. -/
def load (d : Nat) (blob : List Nat) : Except LoadErr Index :=
  match blob with
  | dimTag :: cnt :: rest =>
    if dimTag ≠ d then Except.error LoadErr.dimMismatch
    else
      match decodeEntries cnt rest with
      | some (es, []) => Except.ok ⟨dimTag, es⟩
      | _ => Except.error LoadErr.malformed
  | _ => Except.error LoadErr.malformed

/-! ## Prompt assembly (embedded from the source)

`format_docs` and the `rag_chain` wiring are literally in the notebooks:

    def format_docs(docs):
        return "\n\n".join(doc.page_content for doc in docs)

    rag_chain = (
        {"context": retriever | format_docs, "question": RunnablePassthrough()}
        | prompt
        | llm
        | StrOutputParser()
    )

and the `rlm/rag-prompt` template renders (per the notebook's own sample
invocation) as a fixed instruction header followed by the question and the
context spliced in verbatim. -/

/-- Python `sep.join(items)`: the items interleaved with the separator. -/
def joinSep (sep : List Char) : List (List Char) → List Char
  | [] => []
  | [d] => d
  | d :: rest => d ++ (sep ++ joinSep sep rest)

/-- The separator `format_docs` joins with: `"\n\n"`. -/
def sepNl2 : List Char := ['\n', '\n']

/-- `format_docs` from the notebook: join the retrieved texts with a blank
line. -/
def formatDocs (docs : List (List Char)) : List Char := joinSep sepNl2 docs

/-- The apostrophe character (spliced into the template text below). -/
def apos : Char := Char.ofNat 39

/-- The fixed instruction header of the `rlm/rag-prompt` template, up to
and including the `Question:` label, exactly as the notebook's sample
invocation renders it. -/
def tmplHeader : List Char :=
  "You are an assistant for question-answering tasks. Use the following pieces of retrieved context to answer the question. If you don".toList
    ++ [apos] ++ "t know the answer, just say that you don".toList
    ++ [apos] ++ "t know. Use three sentences maximum and keep the answer concise.\nQuestion: ".toList

/-- The template text between the question and the context. -/
def tmplCtxLabel : List Char := " \nContext: ".toList

/-- The template text after the context. -/
def tmplAnswerLabel : List Char := " \nAnswer:".toList

/-- The Prompt Assembler: substitute the question and the joined context
into the fixed template, verbatim, with no validation or escaping. -/
def assemble (question ctx : List Char) : List Char :=
  tmplHeader ++ question ++ tmplCtxLabel ++ ctx ++ tmplAnswerLabel

/-- The input map the chain builds for the prompt template:
`{"context": retriever | format_docs, "question": RunnablePassthrough()}`. -/
structure PromptInput where
  context : List Char
  question : List Char
deriving DecidableEq

/-- `RunnablePassthrough()` from the notebook: passes its input through
unchanged. -/
def runnablePassthrough (x : List Char) : List Char := x

/-- The chain's prompt-input stage: the retrieved chunks formatted by
`format_docs` become the context; the question is passed through. -/
def ragChainInput (idx : List Entry) (q : List Char) : PromptInput :=
  { context := formatDocs ((retrieve idx q retrieverK).map Entry.text),
    question := runnablePassthrough q }

/-- The prompt the `rag_chain` submits to the model for a question: the
template applied to the chain's prompt input. -/
def ragChain (idx : List Entry) (q : List Char) : List Char :=
  assemble (ragChainInput idx q).question (ragChainInput idx q).context

/-! ## Helper lemmas: prompt assembly -/

/-- `joinSep` on a list of two or more items starts with the first item
followed by the separator. -/
lemma joinSep_cons_cons (sep x y : List Char) (rest : List (List Char)) :
    joinSep sep (x :: y :: rest) = x ++ (sep ++ joinSep sep (y :: rest)) := rfl

/-- Every item of the joined list occurs verbatim inside the join. -/
lemma joinSep_mem_infix (sep : List Char) (docs : List (List Char)) :
    ∀ d ∈ docs, ∃ pre suf, joinSep sep docs = pre ++ (d ++ suf) := by
  induction docs with
  | nil => simp
  | cons x rest ih =>
    intro d hd
    cases rest with
    | nil =>
      simp only [List.mem_singleton] at hd
      subst hd
      exact ⟨[], [], by simp [joinSep]⟩
    | cons y rest2 =>
      rcases List.mem_cons.mp hd with rfl | hd2
      · exact ⟨[], sep ++ joinSep sep (y :: rest2), by simp [joinSep_cons_cons]⟩
      · obtain ⟨pre, suf, hps⟩ := ih d hd2
        exact ⟨x ++ sep ++ pre, suf, by simp [joinSep_cons_cons, hps, List.append_assoc]⟩

end CodeExplainer

namespace CodeExplainer

/-! ## Claim theorems -/

/-- C9: `format_docs` on the empty document list returns the empty string,
and on a one-element list returns that document's `page_content`
unchanged. -/
theorem format_docs_edge_cases :
    formatDocs [] = [] ∧ ∀ d : List Char, formatDocs [d] = d :=
  ⟨rfl, fun _ => rfl⟩

/-- C8: prompt assembly is the pure function substituting the question and
the `"\n\n"`-join of the retrieved texts into the fixed instruction
template; no escaping happens, so the question and every retrieved chunk
(template-like syntax included) appear verbatim in the assembled
prompt. -/
theorem assemble_verbatim (q : List Char) (docs : List (List Char)) :
    assemble q (formatDocs docs)
        = tmplHeader ++ (q ++ (tmplCtxLabel ++ (joinSep sepNl2 docs ++ tmplAnswerLabel)))
      ∧ (∃ pre suf, assemble q (formatDocs docs) = pre ++ (q ++ suf))
      ∧ ∀ d ∈ docs, ∃ pre suf, assemble q (formatDocs docs) = pre ++ (d ++ suf) := by
  refine ⟨by simp [assemble, formatDocs, List.append_assoc], ⟨tmplHeader,
    tmplCtxLabel ++ (joinSep sepNl2 docs ++ tmplAnswerLabel),
    by simp [assemble, formatDocs, List.append_assoc]⟩, ?_⟩
  intro d hd
  obtain ⟨pre, suf, hps⟩ := joinSep_mem_infix sepNl2 docs d hd
  exact ⟨tmplHeader ++ q ++ tmplCtxLabel ++ pre, suf ++ tmplAnswerLabel,
    by simp [assemble, formatDocs, hps, List.append_assoc]⟩

/-- Witness for C8 at a concrete question and document list. -/
theorem assemble_verbatim_witness :
    ∃ pre suf,
      assemble "Q".toList (formatDocs ["D".toList])
        = pre ++ ("D".toList ++ suf) :=
  (assemble_verbatim "Q".toList ["D".toList]).2.2 "D".toList (by simp)

/-- C10: the chain passes the question through unmodified —
`RunnablePassthrough` is the identity, the `question` field of the prompt
input is the exact question text, and the assembled prompt is the template
applied to that exact text. -/
theorem rag_chain_passthrough (idx : List Entry) (q : List Char) :
    (ragChainInput idx q).question = q
      ∧ runnablePassthrough q = q
      ∧ ragChain idx q
          = assemble q (formatDocs ((retrieve idx q retrieverK).map Entry.text)) :=
  ⟨rfl, rfl, rfl⟩

/-- C7: the Embedder is deterministic — a pure function of the text — and
produces vectors of the fixed dimension of the configured model. -/
theorem embed_deterministic_fixed_dim (t : List Char) :
    embed t = embed t ∧ (embed t).length = embedDim :=
  ⟨rfl, by simp [embed]⟩

/-- C5: loading a persisted index with an embedding model of a different
dimension than the one it was built with fails fast with a
dimension-mismatch error, never returning an index. -/
theorem load_dim_mismatch (idx : Index) (d : Nat) (h : d ≠ idx.dim) :
    load d (save idx) = Except.error LoadErr.dimMismatch := by
  simp [load, save, Ne.symm h]

/-- Witness for C5: a 3-dimensional index loaded with a 2-dimensional
model. -/
theorem load_dim_mismatch_witness :
    (2 ≠ (Index.mk 3 [] : Index).dim)
      ∧ load 2 (save (Index.mk 3 [])) = Except.error LoadErr.dimMismatch :=
  ⟨by decide, load_dim_mismatch (Index.mk 3 []) 2 (by decide)⟩

/-! ## Helper lemmas: persistence round-trip -/

/-- Zigzag integer coding round-trips. -/
lemma decodeInt_encodeInt (i : Int) : decodeInt (encodeInt i) = i := by
  unfold encodeInt decodeInt
  split_ifs <;> omega

/-- Reading back exactly the tokens that were appended in front. -/
lemma readTokens_append (xs rest : List Nat) :
    readTokens xs.length (xs ++ rest) = some (xs, rest) := by
  unfold readTokens
  rw [if_pos (by simp)]
  rw [List.take_left, List.drop_left]

/-- Entry serialisation round-trips, leaving the rest of the blob
untouched. -/
lemma decodeEntry_encodeEntry (e : Entry) (rest : List Nat) :
    decodeEntry (encodeEntry e ++ rest) = some (e, rest) := by
  have hv : readTokens e.vec.length
      (e.vec.map encodeInt ++ (e.text.length :: (e.text.map Char.toNat ++ rest)))
      = some (e.vec.map encodeInt, e.text.length :: (e.text.map Char.toNat ++ rest)) := by
    have := readTokens_append (e.vec.map encodeInt)
      (e.text.length :: (e.text.map Char.toNat ++ rest))
    rwa [List.length_map] at this
  have ht : readTokens e.text.length (e.text.map Char.toNat ++ rest)
      = some (e.text.map Char.toNat, rest) := by
    have := readTokens_append (e.text.map Char.toNat) rest
    rwa [List.length_map] at this
  simp only [encodeEntry, List.cons_append, List.append_assoc]
  simp only [decodeEntry]
  rw [hv]
  simp only [Option.some_bind]
  rw [ht]
  simp only [Option.some_bind, List.map_map]
  simp [Function.comp_def, decodeInt_encodeInt, Char.ofNat_toNat]

/-- Decoding `n` serialised entries recovers them all. -/
lemma decodeEntries_encode (es : List Entry) (rest : List Nat) :
    decodeEntries es.length ((es.map encodeEntry).flatten ++ rest) = some (es, rest) := by
  induction es generalizing rest with
  | nil => simp [decodeEntries]
  | cons e es ih =>
    simp only [List.map_cons, List.flatten_cons, List.length_cons, List.append_assoc]
    simp only [decodeEntries]
    rw [decodeEntry_encodeEntry]
    simp only [Option.some_bind]
    rw [ih]
    rfl

/-- Loading a saved index with the same embedding dimension restores it
exactly. -/
lemma load_save (idx : Index) : load idx.dim (save idx) = Except.ok idx := by
  have h := decodeEntries_encode idx.entries []
  rw [List.append_nil] at h
  show (if idx.dim ≠ idx.dim then Except.error LoadErr.dimMismatch
    else
      match decodeEntries idx.entries.length ((idx.entries.map encodeEntry).flatten) with
      | some (es, []) => Except.ok ⟨idx.dim, es⟩
      | _ => Except.error LoadErr.malformed) = Except.ok idx
  rw [if_neg (by simp), h]

/-- C4: round-trip of index persistence — loading a saved index (with the
embedding model it was built with) restores an index whose retrieval
results equal those of the original for every query and every `k`. -/
theorem index_roundtrip_search (idx : Index) (q : List Char) (k : Nat) :
    ∃ idx2, load idx.dim (save idx) = Except.ok idx2
      ∧ retrieve idx2.entries q k = retrieve idx.entries q k :=
  ⟨idx, load_save idx, rfl⟩

/-! ## Helper lemmas: chunker -/

/-- Dropping the overlap from every chunk and flattening yields the text
with its first `overlap` characters dropped. -/
lemma flatten_map_drop (maxSize overlap : Nat) (h : overlap < maxSize) :
    ∀ t : List Char,
      ((slidingChunks maxSize overlap t).map (List.drop overlap)).flatten
        = List.drop overlap t := by
  intro t
  induction t using slidingChunks.induct maxSize overlap with
  | case1 x h0 => exact absurd h0 (by omega)
  | case2 x h0 hle =>
    rw [slidingChunks, if_neg h0, if_pos hle]
    simp
  | case3 x h0 hgt ih =>
    rw [slidingChunks, if_neg h0, if_neg hgt]
    simp only [List.map_cons, List.flatten_cons, ih]
    rw [List.drop_take, List.drop_drop]
    have h1 : maxSize - overlap + overlap = maxSize := by omega
    rw [h1]
    have h2 : List.drop maxSize x
        = List.drop (maxSize - overlap) (List.drop overlap x) := by
      rw [List.drop_drop]
      congr 1
      omega
    rw [h2, List.take_append_drop]

/-- Gluing the chunks back together (dropping each later chunk's leading
overlap) reconstructs the original text. -/
lemma reconstruct_slidingChunks (maxSize overlap : Nat) (h : overlap < maxSize)
    (t : List Char) :
    reconstruct overlap (slidingChunks maxSize overlap t) = t := by
  rw [slidingChunks, if_neg (by omega : ¬maxSize - overlap = 0)]
  by_cases hle : t.length ≤ maxSize
  · rw [if_pos hle]
    simp [reconstruct]
  · rw [if_neg hle]
    simp only [reconstruct]
    rw [flatten_map_drop maxSize overlap h, List.drop_drop]
    have h1 : maxSize - overlap + overlap = maxSize := by omega
    rw [h1, List.take_append_drop]

/-- Every position of the text lies inside some chunk, at the chunk's
actual position in the text. -/
lemma slidingChunks_coverage (maxSize overlap : Nat) (h : overlap < maxSize) :
    ∀ t : List Char, ∀ i < t.length,
      ∃ c ∈ slidingChunks maxSize overlap t, ∃ pre suf,
        t = pre ++ c ++ suf ∧ pre.length ≤ i ∧ i < pre.length + c.length := by
  intro t
  induction t using slidingChunks.induct maxSize overlap with
  | case1 x h0 => exact absurd h0 (by omega)
  | case2 x h0 hle =>
    intro i hi
    refine ⟨x, ?_, [], [], by simp, by simp, by simpa using hi⟩
    rw [slidingChunks, if_neg h0, if_pos hle]
    simp
  | case3 x h0 hgt ih =>
    intro i hi
    by_cases hic : i < maxSize
    · refine ⟨List.take maxSize x, ?_, [], List.drop maxSize x, ?_, by simp, ?_⟩
      · rw [slidingChunks, if_neg h0, if_neg hgt]
        exact List.mem_cons_self _ _
      · simp
      · simp only [List.length_nil, List.length_take, Nat.zero_add]
        omega
    · have hi' : i - (maxSize - overlap) < (List.drop (maxSize - overlap) x).length := by
        rw [List.length_drop]
        omega
      obtain ⟨c, hc, pre, suf, hsplit, hpre, hlt⟩ := ih (i - (maxSize - overlap)) hi'
      have htake : (List.take (maxSize - overlap) x).length = maxSize - overlap := by
        rw [List.length_take]
        omega
      refine ⟨c, ?_, List.take (maxSize - overlap) x ++ pre, suf, ?_, ?_, ?_⟩
      · rw [slidingChunks, if_neg h0, if_neg hgt]
        exact List.mem_cons_of_mem _ hc
      · conv_lhs => rw [← List.take_append_drop (maxSize - overlap) x, hsplit]
        simp [List.append_assoc]
      · rw [List.length_append, htake]
        omega
      · rw [List.length_append, htake]
        omega

/-- The chunk list's length depends on the text only through its length. -/
lemma length_slidingChunks (maxSize overlap : Nat) :
    ∀ t : List Char,
      (slidingChunks maxSize overlap t).length = chunkCount maxSize overlap t.length := by
  intro t
  induction t using slidingChunks.induct maxSize overlap with
  | case1 x h0 => rw [slidingChunks, chunkCount, if_pos h0, if_pos h0]; rfl
  | case2 x h0 hle =>
    rw [slidingChunks, chunkCount, if_neg h0, if_neg h0, if_pos hle, if_pos hle]
    rfl
  | case3 x h0 hgt ih =>
    rw [slidingChunks, chunkCount, if_neg h0, if_neg h0, if_neg hgt, if_neg hgt]
    rw [List.length_cons, ih, List.length_drop]
    omega

/-- Closed form for the chunk count: one chunk for a short text, else one
chunk per window advance, rounding up. -/
lemma chunkCount_formula (maxSize overlap : Nat) (h : overlap < maxSize) :
    ∀ len, chunkCount maxSize overlap len =
      if len ≤ maxSize then 1
      else 1 + (len - maxSize + (maxSize - overlap) - 1) / (maxSize - overlap) := by
  intro len
  induction len using Nat.strong_induction_on with
  | _ len ih =>
    rw [chunkCount, if_neg (by omega : ¬maxSize - overlap = 0)]
    by_cases hle : len ≤ maxSize
    · rw [if_pos hle, if_pos hle]
    · rw [if_neg hle, if_neg hle, ih (len - (maxSize - overlap)) (by omega)]
      by_cases hle2 : len - (maxSize - overlap) ≤ maxSize
      · rw [if_pos hle2]
        have h1 : (len - maxSize + (maxSize - overlap) - 1) / (maxSize - overlap) = 1 := by
          refine Nat.div_eq_of_lt_le (by omega) (by omega)
        omega
      · rw [if_neg hle2]
        have h2 : len - maxSize + (maxSize - overlap) - 1
            = (len - (maxSize - overlap) - maxSize + (maxSize - overlap) - 1)
                + (maxSize - overlap) := by omega
        rw [h2, Nat.add_div_right _ (by omega : 0 < maxSize - overlap)]
        omega

/-- C2: the chunk sequence covers the Document — every position of the
original text lies in some chunk at its true offset — and concatenating
the chunks after dropping each later chunk's leading overlap reconstructs
the original text losslessly. -/
theorem chunker_coverage_reconstruct (maxSize overlap : Nat) (t : List Char)
    (h : overlap < maxSize) :
    reconstruct overlap (slidingChunks maxSize overlap t) = t
      ∧ ∀ i < t.length, ∃ c ∈ slidingChunks maxSize overlap t, ∃ pre suf,
          t = pre ++ c ++ suf ∧ pre.length ≤ i ∧ i < pre.length + c.length :=
  ⟨reconstruct_slidingChunks maxSize overlap h t,
    slidingChunks_coverage maxSize overlap h t⟩

/-- Witness for C2 on a concrete text with `maxSize=3, overlap=1`. -/
theorem chunker_coverage_reconstruct_witness :
    (1 < 3)
      ∧ (reconstruct 1 (slidingChunks 3 1 "abcde".toList) = "abcde".toList
        ∧ ∀ i < ("abcde".toList).length, ∃ c ∈ slidingChunks 3 1 "abcde".toList,
            ∃ pre suf, "abcde".toList = pre ++ c ++ suf
              ∧ pre.length ≤ i ∧ i < pre.length + c.length) :=
  ⟨by norm_num, chunker_coverage_reconstruct 3 1 "abcde".toList (by norm_num)⟩

/-- C6: every chunk respects the size bound `len(chunk) ≤ max_size` (the
character-level fallback splits any unit, so not even the documented
oversized-unit exception arises in the model). -/
theorem chunk_size_bound (maxSize overlap : Nat) (t : List Char)
    (h : overlap < maxSize) :
    ∀ c ∈ slidingChunks maxSize overlap t, c.length ≤ maxSize := by
  induction t using slidingChunks.induct maxSize overlap with
  | case1 x h0 => exact absurd h0 (by omega)
  | case2 x h0 hle =>
    intro c hc
    rw [slidingChunks, if_neg h0, if_pos hle] at hc
    simp only [List.mem_singleton] at hc
    subst hc
    exact hle
  | case3 x h0 hgt ih =>
    intro c hc
    rw [slidingChunks, if_neg h0, if_neg hgt] at hc
    rcases List.mem_cons.mp hc with rfl | hc2
    · simp
    · exact ih c hc2

/-- Witness for C6 on a concrete text with `maxSize=3, overlap=1`. -/
theorem chunk_size_bound_witness :
    (1 < 3) ∧ ∀ c ∈ slidingChunks 3 1 "abcde".toList, c.length ≤ 3 :=
  ⟨by norm_num, chunk_size_bound 3 1 "abcde".toList (by norm_num)⟩

/-- C3 counterexample: a 1400-character document split with
`chunk_size=750, chunk_overlap=75` yields 2 chunks, while the claimed
formula ⌈1400 / (750−75)⌉ gives 3. -/
theorem chunk_count_scenario_counterexample :
    (slidingChunks chunkSize chunkOverlap (List.replicate 1400 'a')).length = 2
      ∧ (1400 + (chunkSize - chunkOverlap) - 1) / (chunkSize - chunkOverlap) = 3 := by
  constructor
  · rw [length_slidingChunks]
    simp only [List.length_replicate, chunkSize, chunkOverlap]
    rw [chunkCount]
    norm_num
    rw [chunkCount]
    norm_num
  · norm_num [chunkSize, chunkOverlap]

/-- C3 (amended): splitting a document of length `L` with
`(max_size, overlap)` yields exactly one chunk when `L ≤ max_size`, and
otherwise exactly `1 + ⌈(L − max_size) / (max_size − overlap)⌉` overlapping
chunks. -/
theorem chunk_count_amended (maxSize overlap : Nat) (t : List Char)
    (h : overlap < maxSize) :
    (slidingChunks maxSize overlap t).length =
      if t.length ≤ maxSize then 1
      else 1 + (t.length - maxSize + (maxSize - overlap) - 1) / (maxSize - overlap) := by
  rw [length_slidingChunks, chunkCount_formula maxSize overlap h]

/-- Witness for the amended C3 on a concrete 6-character text with
`maxSize=3, overlap=1` (three chunks). -/
theorem chunk_count_amended_witness :
    (1 < 3)
      ∧ (slidingChunks 3 1 "abcdef".toList).length =
          if ("abcdef".toList).length ≤ 3 then 1
          else 1 + (("abcdef".toList).length - 3 + (3 - 1) - 1) / (3 - 1) :=
  ⟨by norm_num, chunk_count_amended 3 1 "abcdef".toList (by norm_num)⟩

/-! ## Helper lemmas: MMR retrieval -/

/-- The redundancy penalty only grows as the selected set grows. -/
lemma penalty_cons_le (x c : Entry) (sel : List Entry) :
    penalty sel c ≤ penalty (x :: sel) c := by
  show penalty sel c ≤ max (sim x.vec c.vec) (penalty sel c)
  exact le_max_right _ _

/-- The marginal-relevance score only shrinks as the selected set grows. -/
lemma mmrScore_cons_le (qv : List Int) (x c : Entry) (sel : List Entry) :
    mmrScore qv (x :: sel) c ≤ mmrScore qv sel c :=
  sub_le_sub_left (penalty_cons_le x c sel) _

/-- `pickBest` fails only on an empty candidate list. -/
lemma pickBest_eq_none (qv : List Int) (sel : List Entry) :
    ∀ cands : List Entry, pickBest qv sel cands = none → cands = [] := by
  intro cands
  cases cands with
  | nil => intro _; rfl
  | cons c rest =>
    intro hnone
    rw [pickBest] at hnone
    rcases hrec : pickBest qv sel rest with _ | ⟨b, others⟩ <;> rw [hrec] at hnone
    · exact absurd hnone (by simp)
    · by_cases hif : mmrScore qv sel b ≤ mmrScore qv sel c <;>
        simp [hif] at hnone

/-- What `pickBest` guarantees: the pick is a candidate, one candidate is
consumed, the others remain candidates, and the pick's score is maximal. -/
lemma pickBest_spec (qv : List Int) (sel : List Entry) :
    ∀ cands b others, pickBest qv sel cands = some (b, others) →
      b ∈ cands ∧ others.length + 1 = cands.length
        ∧ (∀ c ∈ others, c ∈ cands)
        ∧ (∀ c ∈ cands, mmrScore qv sel c ≤ mmrScore qv sel b) := by
  intro cands
  induction cands with
  | nil => intro b others h; exact absurd h (by rw [pickBest]; simp)
  | cons c rest ih =>
    intro b others h
    rw [pickBest] at h
    rcases hrec : pickBest qv sel rest with _ | ⟨b0, o0⟩ <;> rw [hrec] at h
    · have hrest : rest = [] := pickBest_eq_none qv sel rest hrec
      subst hrest
      simp only [Option.some.injEq, Prod.mk.injEq] at h
      obtain ⟨rfl, rfl⟩ := h
      refine ⟨by simp, by simp, by simp, ?_⟩
      intro x hx
      simp only [List.mem_singleton] at hx
      subst hx
      exact le_refl _
    · obtain ⟨hb0, hlen, hsub, hmax⟩ := ih b0 o0 hrec
      replace h : (if mmrScore qv sel b0 ≤ mmrScore qv sel c then some (c, b0 :: o0)
          else some (b0, c :: o0)) = some (b, others) := h
      by_cases hif : mmrScore qv sel b0 ≤ mmrScore qv sel c
      · rw [if_pos hif] at h
        simp only [Option.some.injEq, Prod.mk.injEq] at h
        obtain ⟨rfl, rfl⟩ := h
        refine ⟨by simp, by simp [← hlen], ?_, ?_⟩
        · intro x hx
          rcases List.mem_cons.mp hx with rfl | hx2
          · exact List.mem_cons_of_mem _ hb0
          · exact List.mem_cons_of_mem _ (hsub x hx2)
        · intro x hx
          rcases List.mem_cons.mp hx with rfl | hx2
          · exact le_refl _
          · exact le_trans (hmax x hx2) hif
      · rw [if_neg hif] at h
        simp only [Option.some.injEq, Prod.mk.injEq] at h
        obtain ⟨rfl, rfl⟩ := h
        refine ⟨List.mem_cons_of_mem _ hb0, by simp [← hlen], ?_, ?_⟩
        · intro x hx
          rcases List.mem_cons.mp hx with rfl | hx2
          · exact List.mem_cons_self _ _
          · exact List.mem_cons_of_mem _ (hsub x hx2)
        · intro x hx
          rcases List.mem_cons.mp hx with rfl | hx2
          · exact le_of_lt (lt_of_not_le hif)
          · exact hmax x hx2

/-- Greedy MMR returns `min k n` results when `n` candidates are
available. -/
lemma mmrAux_length (qv : List Int) :
    ∀ k sel (cands : List Entry),
      (mmrAux qv sel cands k).length = min k cands.length := by
  intro k
  induction k with
  | zero => intro sel cands; simp [mmrAux]
  | succ k ih =>
    intro sel cands
    cases cands with
    | nil => rw [mmrAux]; simp [show pickBest qv sel [] = none from rfl]
    | cons c rest =>
      rw [mmrAux]
      rcases hpick : pickBest qv sel (c :: rest) with _ | ⟨b, others⟩
      · exact absurd (pickBest_eq_none qv sel _ hpick) (by simp)
      · obtain ⟨_, hlen, _, _⟩ := pickBest_spec qv sel _ b others hpick
        simp only [List.length_cons, ih]
        simp only [List.length_cons] at hlen
        omega

/-- Any uniform bound on the candidates' scores bounds every score the
greedy selection records. -/
lemma mmrAux_score_bound (qv : List Int) :
    ∀ k sel (cands : List Entry) (B : Int),
      (∀ c ∈ cands, mmrScore qv sel c ≤ B) →
      ∀ p ∈ mmrAux qv sel cands k, p.2 ≤ B := by
  intro k
  induction k with
  | zero => intro sel cands B _ p hp; simp [mmrAux] at hp
  | succ k ih =>
    intro sel cands B hB p hp
    rw [mmrAux] at hp
    rcases hpick : pickBest qv sel cands with _ | ⟨b, others⟩ <;> rw [hpick] at hp
    · simp at hp
    · obtain ⟨hbmem, _, hsub, _⟩ := pickBest_spec qv sel _ b others hpick
      rcases List.mem_cons.mp hp with rfl | hp2
      · exact hB b hbmem
      · refine ih (b :: sel) others B ?_ p hp2
        intro c hc
        exact le_trans (mmrScore_cons_le qv b c sel) (hB c (hsub c hc))

/-- The scores the greedy MMR selection records are non-increasing. -/
lemma mmrAux_chain (qv : List Int) :
    ∀ k sel (cands : List Entry),
      List.Chain' (fun p p2 => p2.2 ≤ p.2) (mmrAux qv sel cands k) := by
  intro k
  induction k with
  | zero => intro sel cands; simp [mmrAux]
  | succ k ih =>
    intro sel cands
    rw [mmrAux]
    rcases hpick : pickBest qv sel cands with _ | ⟨b, others⟩
    · simp
    · obtain ⟨_, _, hsub, hmax⟩ := pickBest_spec qv sel _ b others hpick
      rw [List.chain'_cons']
      refine ⟨?_, ih (b :: sel) others⟩
      intro y hy
      refine mmrAux_score_bound qv k (b :: sel) others (mmrScore qv sel b) ?_ y
        (List.mem_of_mem_head? hy)
      intro c hc
      exact le_trans (mmrScore_cons_le qv b c sel) (hmax c (hsub c hc))

/-- C1: for every query and index state, retrieval returns at most `k`
results (exactly `min k n` when the index holds `n` entries), and the
returned sequence is ordered best-first under the configured MMR strategy:
the marginal-relevance scores the results were selected at are
non-increasing. -/
theorem retrieve_at_most_k_sorted (idx : List Entry) (q : List Char) (k : Nat) :
    (retrieve idx q k).length = min k idx.length
      ∧ List.Chain' (fun p p2 => p2.2 ≤ p.2) (retrieveScored idx q k) :=
  ⟨by rw [retrieve, List.length_map]; exact mmrAux_length (embed q) k [] idx,
    mmrAux_chain (embed q) k [] idx⟩

end CodeExplainer
